import Mathlib

/-!
Verification development for the archive builder of qgrep (src/build.cpp).

The C++ code is shallowly embedded:
- byte buffers (std::vector of char, std::string contents) become lists of
  natural numbers;
- the builder's output stream becomes an explicit list of written chunk
  records (one entry per ChunkHeader + compressed body pair);
- quantities defined outside the verified sources (sizeof(ChunkFileHeader)
  from format.hpp, kChunkSize from constants.hpp) are parameters, collected
  in a Config structure;
- the external LZ4 compressor, the filesystem and the RE2 matcher are
  abstract parameters;
- the C assert in Builder::compressData is modelled by an Option result
  (none meaning the assertion fired and the process aborted).
-/

namespace QGrep

/-- Bytes of buffers and strings are modelled as natural numbers. -/
abbrev Byte := Nat

/-- Mirrors Builder::File from build.cpp: the file name (the path the file was
opened under), the contents read from the input stream, and the
fileSize/timeStamp metadata obtained from getFileAttributes. -/
structure File where
  name : List Byte
  contents : List Byte
  fileSize : Nat
  timeStamp : Nat
  deriving Repr, DecidableEq

/-- Mirrors Builder::Chunk: the accumulated files and the running totalSize. -/
structure Chunk where
  files : List File
  totalSize : Nat
  deriving Repr, DecidableEq

/-- Mirrors the Chunk default constructor: no files, totalSize 0. -/
def Chunk.empty : Chunk := ⟨[], 0⟩

/-- Mirrors struct ChunkFileHeader (declared in format.hpp, filled in by
Builder::prepareChunkData): one per-file entry of the chunk header table.
Entries are kept as structured values rather than raw bytes because the
struct's size and field layout live in format.hpp, outside the verified
sources; the entry size in bytes is therefore a parameter below. -/
structure ChunkFileHeader where
  nameOffset : Nat
  nameLength : Nat
  dataOffset : Nat
  dataSize : Nat
  fileSize : Nat
  timeStamp : Nat
  deriving Repr, DecidableEq

/-- Sum of the name lengths of a list of files. -/
def sumNames (fs : List File) : Nat := (fs.map (fun f => f.name.length)).sum

/-- Sum of the content lengths of a list of files. -/
def sumData (fs : List File) : Nat := (fs.map (fun f => f.contents.length)).sum

/-- Mirrors Builder::getChunkNameTotalSize: total size of all names. -/
def getChunkNameTotalSize (chunk : Chunk) : Nat := sumNames chunk.files

/-- Mirrors Builder::getChunkDataTotalSize: total size of all contents. -/
def getChunkDataTotalSize (chunk : Chunk) : Nat := sumData chunk.files

/-- Concatenation of all name bytes of a list of files. -/
def namesFlat (fs : List File) : List Byte := (fs.map File.name).flatten

/-- Concatenation of all content bytes of a list of files. -/
def dataFlat (fs : List File) : List Byte := (fs.map File.contents).flatten

/-- Overwrite buf from position off with the bytes of src; this is the
std::copy into the preallocated buffer performed by prepareChunkData. -/
def writeBytes (buf : List Byte) (off : Nat) (src : List Byte) : List Byte :=
  buf.take off ++ src ++ buf.drop (off + src.length)

/-- State threaded through the prepareChunkData loop: the output buffer, the
header entries written so far, and the two cursors nameOffset/dataOffset. -/
structure LayoutState where
  buf : List Byte
  headers : List ChunkFileHeader
  nameOffset : Nat
  dataOffset : Nat
  deriving Repr, DecidableEq

/-- One iteration of the prepareChunkData loop over file f: copy the name
bytes at the name cursor and the content bytes at the data cursor, record the
header entry for f, then advance both cursors by the amounts written. -/
def layoutStep (st : LayoutState) (f : File) : LayoutState where
  buf := writeBytes (writeBytes st.buf st.nameOffset f.name) st.dataOffset f.contents
  headers := st.headers ++
    [⟨st.nameOffset, f.name.length, st.dataOffset, f.contents.length, f.fileSize, f.timeStamp⟩]
  nameOffset := st.nameOffset + f.name.length
  dataOffset := st.dataOffset + f.contents.length

/-- Mirrors Builder::prepareChunkData: allocate a zeroed buffer of
headerSize + nameSize + dataSize bytes, set the name cursor to headerSize and
the data cursor to headerSize + nameSize, then walk the files once in order.
entrySize stands for sizeof(ChunkFileHeader), a constant from format.hpp kept
as a parameter; the theorems below hold for every value of it. -/
def prepareChunkData (entrySize : Nat) (chunk : Chunk) : LayoutState :=
  let headerSize := entrySize * chunk.files.length
  let nameSize := getChunkNameTotalSize chunk
  let dataSize := getChunkDataTotalSize chunk
  let totalSize := headerSize + nameSize + dataSize
  chunk.files.foldl layoutStep
    ⟨List.replicate totalSize 0, [], headerSize, headerSize + nameSize⟩

/-- Closed form of the header table produced by the walk: the entry for each
file records the cursors as they stand when the file is visited. -/
def mkHeaders (no d : Nat) : List File → List ChunkFileHeader
  | [] => []
  | f :: fs =>
      ⟨no, f.name.length, d, f.contents.length, f.fileSize, f.timeStamp⟩ ::
        mkHeaders (no + f.name.length) (d + f.contents.length) fs

/-- Worst-case output bound of the LZ4 codec for an input of size n; this is
the documented LZ4_COMPRESSBOUND macro of the external lz4 library
(isize + isize/255 + 16). -/
def LZ4_compressBound (n : Nat) : Nat := n + n / 255 + 16

/-- Result type of the external LZ4_compressHC call: the reported compressed
size (an int in C) and the bytes the compressor wrote into the scratch
buffer. The compressor is external to the verified sources, so it is an
abstract parameter everywhere below. -/
abbrev Compressor := List Byte → Int × List Byte

/-- Mirrors Builder::compressData: allocate a scratch buffer of exactly
LZ4_compressBound(input size) bytes, run the compressor into it, assert
0 <= csize and csize <= scratch size, and truncate the scratch buffer to
csize bytes. The scratch buffer holds whatever the compressor wrote, clipped
and zero padded to its allocated size; none models the assert firing (the
adapter has no normal error path). -/
def compressData (hc : Compressor) (data : List Byte) : Option (List Byte) :=
  let bound := LZ4_compressBound data.length
  let csize := (hc data).1
  let cdata := (hc data).2.take bound ++ List.replicate (bound - (hc data).2.length) 0
  if 0 ≤ csize ∧ csize.toNat ≤ cdata.length then some (cdata.take csize.toNat) else none

/-- Constants and externals the Builder depends on that live outside the
verified sources: sizeof(ChunkFileHeader) from format.hpp, kChunkSize from
constants.hpp, and the external LZ4 compressor. -/
structure Config where
  entrySize : Nat
  kChunkSize : Nat
  hc : Compressor

/-- Mirrors struct ChunkHeader as filled by Builder::writeChunk. -/
structure ChunkHeader where
  fileCount : Nat
  uncompressedSize : Nat
  compressedSize : Nat
  deriving Repr, DecidableEq

/-- Mirrors Builder::Statistics. -/
structure Statistics where
  fileCount : Nat
  fileSize : Nat
  resultSize : Nat
  deriving Repr, DecidableEq

/-- Abstract filesystem, external to the verified sources: whether a path
opens as an input stream, the metadata getFileAttributes reports (timeStamp,
fileSize), and the contents the read loop obtains. -/
structure FS where
  canOpen : List Byte → Bool
  attrs : List Byte → Option (Nat × Nat)
  contents : List Byte → List Byte

/-- Builder state: the current chunk, the chunk records written to the
output stream so far (one entry per ChunkHeader + compressed body pair; the
fixed container FileHeader written by start is before all of them and not
represented), and the running statistics. -/
structure BuilderState where
  currentChunk : Chunk
  out : List (ChunkHeader × List Byte)
  statistics : Statistics
  deriving Repr, DecidableEq

/-- State of a fresh Builder right after construction and start(): empty
current chunk, no chunk records yet, zeroed statistics. -/
def Builder.init : BuilderState := ⟨Chunk.empty, [], ⟨0, 0, 0⟩⟩

/-- Mirrors Builder::writeChunk: compress the chunk body, write one
ChunkHeader record {fileCount, uncompressedSize, compressedSize} followed by
the compressed bytes, and update the statistics. none models the assert in
compressData firing. -/
def writeChunk (cfg : Config) (chunk : Chunk) (data : List Byte) (st : BuilderState) :
    Option BuilderState :=
  match compressData cfg.hc data with
  | none => none
  | some cdata =>
      some { st with
        out := st.out ++ [(⟨chunk.files.length, data.length, cdata.length⟩, cdata)],
        statistics := ⟨st.statistics.fileCount + chunk.files.length,
          st.statistics.fileSize + data.length,
          st.statistics.resultSize + cdata.length⟩ }

/-- Mirrors Builder::flushChunk: no-op when the current chunk has no files;
otherwise encode the chunk body, write the chunk record, and reset the
current chunk to empty. -/
def flushChunk (cfg : Config) (st : BuilderState) : Option BuilderState :=
  if st.currentChunk.files = [] then some st
  else
    match writeChunk cfg st.currentChunk
        (prepareChunkData cfg.entrySize st.currentChunk).buf st with
    | none => none
    | some st2 => some { st2 with currentChunk := Chunk.empty }

/-- Mirrors Builder::flush, which is also what the destructor runs. -/
def Builder.flush (cfg : Config) (st : BuilderState) : Option BuilderState :=
  flushChunk cfg st

/-- Mirrors Builder::appendFile: when the current chunk's totalSize strictly
exceeds kChunkSize, flush it first; then open the file (return false on
failure), read its attributes (return false on failure), read the contents,
and append the file record to the current chunk, growing totalSize by the
content length. The Bool is appendFile's return value; none models the
compression assert aborting during the initial flush. -/
def appendFile (cfg : Config) (fs : FS) (st : BuilderState) (path : List Byte) :
    Option (Bool × BuilderState) :=
  match (if st.currentChunk.totalSize > cfg.kChunkSize then flushChunk cfg st else some st) with
  | none => none
  | some st1 =>
      if fs.canOpen path = false then some (false, st1)
      else
        match fs.attrs path with
        | none => some (false, st1)
        | some (ts, fsz) =>
            some (true, { st1 with currentChunk :=
              ⟨st1.currentChunk.files ++ [⟨path, fs.contents path, fsz, ts⟩],
                st1.currentChunk.totalSize + (fs.contents path).length⟩ })

/-- The append loop of buildProject: builderAppend calls appendFile for each
path in order, ignoring the Bool result (it only logs a warning). -/
def appendAll (cfg : Config) (fs : FS) : List (List Byte) → BuilderState → Option BuilderState
  | [], st => some st
  | p :: ps, st =>
      match appendFile cfg fs st p with
      | none => none
      | some (_, st1) => appendAll cfg fs ps st1

/-- The buildProject stream phase: append every selected file, then the
explicit final flush. -/
def buildRun (cfg : Config) (fs : FS) (paths : List (List Byte)) (st : BuilderState) :
    Option BuilderState :=
  match appendAll cfg fs paths st with
  | none => none
  | some st1 => flushChunk cfg st1

/-- Whitespace pattern used by trim in build.cpp: the characters of " \t". -/
def isTrimSpace (c : Char) : Bool := c = ' ' || c = '\t'

/-- Mirrors std::string::find_first_not_of(" \t"): index of the first
character outside the pattern, none when there is no such character. -/
def findFirstNotOf (s : List Char) : Option Nat :=
  s.findIdx? (fun c => !isTrimSpace c)

/-- Mirrors std::string::find_last_not_of(" \t"): index of the last
character outside the pattern, none when there is no such character. -/
def findLastNotOf (s : List Char) : Option Nat :=
  match findFirstNotOf s.reverse with
  | none => none
  | some k => some (s.length - 1 - k)

/-- Mirrors trim from build.cpp, substr semantics included: substr(b, e + 1)
keeps the e + 1 characters starting at position b (clipped at the string's
end), where b is the first and e the last non-whitespace position; when the
string is all whitespace the result is empty. -/
def trim (s : List Char) : List Char :=
  match findFirstNotOf s, findLastNotOf s with
  | some b, some e => (s.drop b).take (e + 1)
  | _, _ => []

/-- Mirrors extractSuffix from build.cpp: when str starts with the directive
word followed by a whitespace character, the stored value is the trimmed
remainder. isspace is modelled on the C locale set. -/
def isSpaceC (c : Char) : Bool :=
  c = ' ' || c = '\t' || c = '\n' || c = '\x0b' || c = '\x0c' || c = '\r'

/-- Extraction of a directive's value: prefix comparison, the length check,
the whitespace separator check, then trim of the remainder. -/
def extractSuffix (str : List Char) (pre : List Char) : Option (List Char) :=
  if str.take pre.length = pre ∧ pre.length < str.length ∧
      isSpaceC (str.getD pre.length ' ') then
    some (trim (str.drop pre.length))
  else none

/-- Mirrors std::unique (default equality) as used on the sorted file list
in buildProject: drop consecutive duplicate elements, keeping the first of
each run. -/
def uniqueAdj : List String → List String
  | [] => []
  | [a] => [a]
  | a :: b :: rest => if a = b then uniqueAdj (a :: rest) else a :: uniqueAdj (b :: rest)
termination_by l => l.length

/-- Mirrors the two lines of buildProject that canonicalize bc.files:
std::sort with the lexicographic order on std::string (modelled by insertion
sort, which produces the same sorted result), then the
erase(unique(...), end) idiom dropping adjacent duplicates. -/
def sortUnique (files : List String) : List String :=
  uniqueAdj (List.insertionSort (· ≤ ·) files)

/-- Mirrors constructOrRE from build.cpp: no matcher for an empty list,
otherwise the alternation (p1)|(p2)|... built by the loop. The RE2 object
and its case-insensitivity option live in the external re2 library, so
matching on the built pattern is an abstract predicate below. -/
def constructOrRE : List String → Option String
  | [] => none
  | p :: ps => some (ps.foldl (fun re q => re ++ "|(" ++ q ++ ")") ("(" ++ p ++ ")"))

/-- Mirrors isFileAcceptable from build.cpp, with RE2::PartialMatch as the
abstract predicate pm applied to the built pattern and the path; the null
pointer checks on the two RE2 objects are the Option matches. -/
def isFileAcceptable (pm : String → String → Bool)
    (inc exc : Option String) (path : String) : Bool :=
  if (match inc with | some r => !pm r path | none => false) then false
  else if (match exc with | some r => pm r path | none => false) then false
  else true

/-- Concrete configuration for evaluating the builder theorems: zero-sized
header entries, threshold 15, and a compressor reporting the input length
and echoing the input bytes (its report is always within the bound). -/
def cfgW : Config := ⟨0, 15, fun data => ((data.length : Int), data)⟩

/-- Concrete filesystem where every path opens, has timestamp 5 and size 10,
and holds ten bytes of value 7. -/
def fsW : FS := ⟨fun _ => true, fun _ => some (5, 10), fun _ => List.replicate 10 7⟩

/-- Concrete filesystem where no path opens and no metadata is available. -/
def fsW2 : FS := ⟨fun _ => false, fun _ => none, fun _ => []⟩

/-- Concrete two-file chunk for evaluating the layout theorems. -/
def cW : Chunk := ⟨[⟨[10], [20, 21], 7, 8⟩, ⟨[11, 12], [30], 9, 4⟩], 3⟩

/-- Concrete builder state with a non-empty current chunk of ten bytes. -/
def stW : BuilderState := ⟨⟨[⟨[3], List.replicate 10 7, 10, 5⟩], 10⟩, [], ⟨0, 0, 0⟩⟩

/-- Concrete builder state whose current chunk already exceeds threshold 15. -/
def stW2 : BuilderState := ⟨⟨[⟨[3], List.replicate 16 7, 16, 5⟩], 16⟩, [], ⟨0, 0, 0⟩⟩

/-- Concrete compressor for evaluating the codec adapter theorem. -/
def hcW : Compressor := fun data => ((data.length : Int), data)

/-- Concrete input buffer for evaluating the codec adapter theorem. -/
def dataW : List Byte := [1, 2, 3]

/-- Concrete match predicate for evaluating the acceptance theorem. -/
def pmW : String → String → Bool := fun _ _ => true

theorem sumNames_cons (f : File) (fs : List File) :
    sumNames (f :: fs) = f.name.length + sumNames fs := by
  simp [sumNames]

theorem sumData_cons (f : File) (fs : List File) :
    sumData (f :: fs) = f.contents.length + sumData fs := by
  simp [sumData]

theorem writeBytes_at (P R src pad : List Byte) (hlen : pad.length = src.length) :
    writeBytes (P ++ pad ++ R) P.length src = P ++ src ++ R := by
  unfold writeBytes
  have h1 : (P ++ (pad ++ R)).take P.length = P := List.take_left P (pad ++ R)
  have h2 : ((P ++ pad) ++ R).drop (P.length + src.length) = R := by
    rw [← hlen, ← List.length_append]
    exact List.drop_left (P ++ pad) R
  calc (P ++ pad ++ R).take P.length ++ src ++ (P ++ pad ++ R).drop (P.length + src.length)
      = P ++ src ++ R := by
        rw [List.append_assoc P pad R, h1, ← List.append_assoc P pad R, h2]

theorem LayoutState.eq_of_fields {a b : LayoutState} (h1 : a.buf = b.buf)
    (h2 : a.headers = b.headers) (h3 : a.nameOffset = b.nameOffset)
    (h4 : a.dataOffset = b.dataOffset) : a = b := by
  cases a
  cases b
  simp only at h1 h2 h3 h4
  simp [h1, h2, h3, h4]

theorem layout_foldl (fs : List File) : ∀ (P Q : List Byte) (hs : List ChunkFileHeader),
    List.foldl layoutStep
      ⟨P ++ List.replicate (sumNames fs) 0 ++ Q ++ List.replicate (sumData fs) 0, hs,
        P.length, P.length + sumNames fs + Q.length⟩ fs
    = ⟨P ++ namesFlat fs ++ Q ++ dataFlat fs,
        hs ++ mkHeaders P.length (P.length + sumNames fs + Q.length) fs,
        P.length + sumNames fs,
        P.length + sumNames fs + Q.length + sumData fs⟩ := by
  induction fs with
  | nil =>
      intro P Q hs
      simp [namesFlat, dataFlat, sumNames, sumData, mkHeaders]
  | cons f fs ih =>
      intro P Q hs
      rw [List.foldl_cons]
      have hbuf1 :
          writeBytes
            (P ++ List.replicate (sumNames (f :: fs)) 0 ++ Q ++
              List.replicate (sumData (f :: fs)) 0) P.length f.name
          = P ++ f.name ++
              (List.replicate (sumNames fs) 0 ++ Q ++
                List.replicate (sumData (f :: fs)) 0) := by
        have hsplit :
            P ++ List.replicate (sumNames (f :: fs)) 0 ++ Q ++
              List.replicate (sumData (f :: fs)) 0
            = P ++ List.replicate f.name.length 0 ++
                (List.replicate (sumNames fs) 0 ++ Q ++
                  List.replicate (sumData (f :: fs)) 0) := by
          simp [sumNames_cons, List.replicate_add, List.append_assoc,
            -List.append_replicate_replicate]
        rw [hsplit, writeBytes_at P _ f.name (List.replicate f.name.length 0) (by simp)]
      have hbuf2 :
          writeBytes
            (P ++ f.name ++
              (List.replicate (sumNames fs) 0 ++ Q ++
                List.replicate (sumData (f :: fs)) 0))
            (P.length + sumNames (f :: fs) + Q.length) f.contents
          = (P ++ f.name) ++ List.replicate (sumNames fs) 0 ++ (Q ++ f.contents) ++
              List.replicate (sumData fs) 0 := by
        have hsplit :
            P ++ f.name ++
              (List.replicate (sumNames fs) 0 ++ Q ++
                List.replicate (sumData (f :: fs)) 0)
            = (P ++ f.name ++ List.replicate (sumNames fs) 0 ++ Q) ++
                List.replicate f.contents.length 0 ++
                List.replicate (sumData fs) 0 := by
          simp [sumData_cons, List.replicate_add, List.append_assoc,
            -List.append_replicate_replicate]
        have hofflen :
            P.length + sumNames (f :: fs) + Q.length
            = (P ++ f.name ++ List.replicate (sumNames fs) 0 ++ Q).length := by
          simp [sumNames_cons]
          omega
        rw [hsplit, hofflen,
          writeBytes_at _ _ f.contents (List.replicate f.contents.length 0) (by simp)]
        simp [List.append_assoc]
      have hstep :
          layoutStep
            ⟨P ++ List.replicate (sumNames (f :: fs)) 0 ++ Q ++
                List.replicate (sumData (f :: fs)) 0, hs,
              P.length, P.length + sumNames (f :: fs) + Q.length⟩ f
          = ⟨(P ++ f.name) ++ List.replicate (sumNames fs) 0 ++ (Q ++ f.contents) ++
                List.replicate (sumData fs) 0,
              hs ++ [⟨P.length, f.name.length, P.length + sumNames (f :: fs) + Q.length,
                f.contents.length, f.fileSize, f.timeStamp⟩],
              (P ++ f.name).length,
              (P ++ f.name).length + sumNames fs + (Q ++ f.contents).length⟩ := by
        apply LayoutState.eq_of_fields
        · show writeBytes (writeBytes _ _ _) _ _ = _
          rw [hbuf1, hbuf2]
        · rfl
        · show P.length + f.name.length = (P ++ f.name).length
          simp
        · show P.length + sumNames (f :: fs) + Q.length + f.contents.length
            = (P ++ f.name).length + sumNames fs + (Q ++ f.contents).length
          simp [sumNames_cons]
          omega
      rw [hstep, ih (P ++ f.name) (Q ++ f.contents) _]
      apply LayoutState.eq_of_fields
      · show (P ++ f.name) ++ namesFlat fs ++ (Q ++ f.contents) ++ dataFlat fs
          = P ++ namesFlat (f :: fs) ++ Q ++ dataFlat (f :: fs)
        simp [namesFlat, dataFlat, List.append_assoc]
      · show hs ++ [_] ++ mkHeaders (P ++ f.name).length
            ((P ++ f.name).length + sumNames fs + (Q ++ f.contents).length) fs
          = hs ++ mkHeaders P.length (P.length + sumNames (f :: fs) + Q.length) (f :: fs)
        rw [mkHeaders,
          show (P ++ f.name).length = P.length + f.name.length from by simp,
          show P.length + f.name.length + sumNames fs + (Q ++ f.contents).length
              = P.length + sumNames (f :: fs) + Q.length + f.contents.length from by
            simp [sumNames_cons]; omega]
        simp
      · show (P ++ f.name).length + sumNames fs = P.length + sumNames (f :: fs)
        simp [sumNames_cons]
        omega
      · show (P ++ f.name).length + sumNames fs + (Q ++ f.contents).length + sumData fs
          = P.length + sumNames (f :: fs) + Q.length + sumData (f :: fs)
        simp [sumNames_cons, sumData_cons]
        omega

theorem prepareChunkData_eq (entrySize : Nat) (chunk : Chunk) :
    prepareChunkData entrySize chunk =
      ⟨List.replicate (entrySize * chunk.files.length) 0 ++ namesFlat chunk.files ++
          dataFlat chunk.files,
        mkHeaders (entrySize * chunk.files.length)
          (entrySize * chunk.files.length + sumNames chunk.files) chunk.files,
        entrySize * chunk.files.length + sumNames chunk.files,
        entrySize * chunk.files.length + sumNames chunk.files + sumData chunk.files⟩ := by
  unfold prepareChunkData getChunkNameTotalSize getChunkDataTotalSize
  dsimp only
  have hrep :
      List.replicate (entrySize * chunk.files.length + sumNames chunk.files +
        sumData chunk.files) (0 : Byte)
      = List.replicate (entrySize * chunk.files.length) 0 ++
          List.replicate (sumNames chunk.files) 0 ++ ([] : List Byte) ++
          List.replicate (sumData chunk.files) 0 := by
    rw [List.replicate_add, List.replicate_add]
    simp
  rw [hrep]
  have hlen : (List.replicate (entrySize * chunk.files.length) (0 : Byte)).length
      = entrySize * chunk.files.length := by simp
  have := layout_foldl chunk.files (List.replicate (entrySize * chunk.files.length) 0) [] []
  rw [hlen] at this
  simpa using this

theorem namesFlat_cons (f : File) (fs : List File) :
    namesFlat (f :: fs) = f.name ++ namesFlat fs := by
  simp [namesFlat]

theorem dataFlat_cons (f : File) (fs : List File) :
    dataFlat (f :: fs) = f.contents ++ dataFlat fs := by
  simp [dataFlat]

theorem namesFlat_append (a b : List File) :
    namesFlat (a ++ b) = namesFlat a ++ namesFlat b := by
  simp [namesFlat]

theorem dataFlat_append (a b : List File) :
    dataFlat (a ++ b) = dataFlat a ++ dataFlat b := by
  simp [dataFlat]

theorem namesFlat_length (fs : List File) : (namesFlat fs).length = sumNames fs := by
  simp [namesFlat, sumNames, List.length_flatten, Function.comp_def]

theorem dataFlat_length (fs : List File) : (dataFlat fs).length = sumData fs := by
  simp [dataFlat, sumData, List.length_flatten, Function.comp_def]

theorem mkHeaders_length (fs : List File) : ∀ no d : Nat,
    (mkHeaders no d fs).length = fs.length := by
  induction fs with
  | nil => intro no d; rfl
  | cons f fs ih => intro no d; simp [mkHeaders, ih]

theorem mkHeaders_get (fs : List File) : ∀ (no d i : Nat) (hi : i < fs.length)
    (hh : i < (mkHeaders no d fs).length),
    (mkHeaders no d fs).get ⟨i, hh⟩ =
      ⟨no + sumNames (fs.take i), (fs.get ⟨i, hi⟩).name.length,
        d + sumData (fs.take i), (fs.get ⟨i, hi⟩).contents.length,
        (fs.get ⟨i, hi⟩).fileSize, (fs.get ⟨i, hi⟩).timeStamp⟩ := by
  induction fs with
  | nil => intro no d i hi hh; exact absurd hi (by simp)
  | cons f fs ih =>
      intro no d i hi hh
      cases i with
      | zero => simp [mkHeaders, sumNames, sumData]
      | succ i =>
          have hi' : i < fs.length := by
            simpa using hi
          have hh' : i < (mkHeaders (no + f.name.length) (d + f.contents.length) fs).length := by
            rw [mkHeaders_length]
            exact hi'
          have hstep : (mkHeaders no d (f :: fs)).get ⟨i + 1, hh⟩
              = (mkHeaders (no + f.name.length) (d + f.contents.length) fs).get ⟨i, hh'⟩ := by
            simp [mkHeaders]
          rw [hstep, ih (no + f.name.length) (d + f.contents.length) i hi' hh']
          simp [sumNames_cons, sumData_cons, Nat.add_assoc]

theorem files_decomp (fs : List File) (i : Nat) (hi : i < fs.length) :
    fs = fs.take i ++ (fs.get ⟨i, hi⟩ :: fs.drop (i + 1)) := by
  conv_lhs => rw [← List.take_append_drop i fs]
  rw [List.drop_eq_getElem_cons hi]
  simp

/-- C3: layout encoder assertion validity. For every chunk (every file count
and every combination of name and content lengths, zero-length names and
contents included) and for every header entry size, after the single in-order
walk of prepareChunkData the final name cursor equals
headerSize + nameSize and the final data cursor equals the total buffer size
headerSize + nameSize + dataSize, so the assert on the two cursors always
holds. -/
theorem prepareChunkData_cursors (entrySize : Nat) (chunk : Chunk) :
    (prepareChunkData entrySize chunk).nameOffset
      = entrySize * chunk.files.length + getChunkNameTotalSize chunk
    ∧ (prepareChunkData entrySize chunk).dataOffset
      = entrySize * chunk.files.length + getChunkNameTotalSize chunk +
          getChunkDataTotalSize chunk
    ∧ (prepareChunkData entrySize chunk).dataOffset
      = (prepareChunkData entrySize chunk).buf.length := by
  rw [prepareChunkData_eq]
  refine ⟨rfl, rfl, ?_⟩
  simp only [List.length_append, List.length_replicate, namesFlat_length, dataFlat_length,
    getChunkNameTotalSize, getChunkDataTotalSize]

/-- C2: encoded chunk body layout. For every non-empty chunk of n files and
every header entry size, the encoder produces n header entries in insertion
order, entry i records nameOffset = n * entrySize + (sum of name lengths of
files before i), nameLength = file i's name length, dataOffset =
n * entrySize + nameRegionSize + (sum of content lengths of files before i),
dataSize = file i's content length, together with file i's fileSize and
timeStamp; and the body bytes starting at nameOffset are file i's name, those
starting at dataOffset are file i's contents, offsets measured from the start
of the whole body. -/
theorem prepareChunkData_layout (entrySize : Nat) (chunk : Chunk)
    (_hne : chunk.files ≠ []) (i : Nat) (hi : i < chunk.files.length) :
    (prepareChunkData entrySize chunk).headers.length = chunk.files.length
    ∧ (∀ hh : i < (prepareChunkData entrySize chunk).headers.length,
        (prepareChunkData entrySize chunk).headers.get ⟨i, hh⟩ =
          ⟨chunk.files.length * entrySize + sumNames (chunk.files.take i),
            (chunk.files.get ⟨i, hi⟩).name.length,
            chunk.files.length * entrySize + getChunkNameTotalSize chunk +
              sumData (chunk.files.take i),
            (chunk.files.get ⟨i, hi⟩).contents.length,
            (chunk.files.get ⟨i, hi⟩).fileSize,
            (chunk.files.get ⟨i, hi⟩).timeStamp⟩)
    ∧ (((prepareChunkData entrySize chunk).buf.drop
          (chunk.files.length * entrySize + sumNames (chunk.files.take i))).take
          (chunk.files.get ⟨i, hi⟩).name.length = (chunk.files.get ⟨i, hi⟩).name)
    ∧ (((prepareChunkData entrySize chunk).buf.drop
          (chunk.files.length * entrySize + getChunkNameTotalSize chunk +
            sumData (chunk.files.take i))).take
          (chunk.files.get ⟨i, hi⟩).contents.length
        = (chunk.files.get ⟨i, hi⟩).contents) := by
  rw [prepareChunkData_eq]
  have hdecomp := files_decomp chunk.files i hi
  refine ⟨by rw [mkHeaders_length], ?_, ?_, ?_⟩
  · intro hh
    rw [mkHeaders_get chunk.files (entrySize * chunk.files.length)
      (entrySize * chunk.files.length + sumNames chunk.files) i hi hh]
    simp [getChunkNameTotalSize, Nat.mul_comm]
  · have hbufsplit :
        List.replicate (entrySize * chunk.files.length) (0 : Byte) ++
            namesFlat chunk.files ++ dataFlat chunk.files
        = (List.replicate (entrySize * chunk.files.length) 0 ++
              namesFlat (chunk.files.take i)) ++
            ((chunk.files.get ⟨i, hi⟩).name ++
              (namesFlat (chunk.files.drop (i + 1)) ++ dataFlat chunk.files)) := by
      conv_lhs => rw [hdecomp]
      rw [namesFlat_append, namesFlat_cons]
      simp [List.append_assoc]
    have hplen :
        (List.replicate (entrySize * chunk.files.length) (0 : Byte) ++
          namesFlat (chunk.files.take i)).length
        = chunk.files.length * entrySize + sumNames (chunk.files.take i) := by
      simp [namesFlat_length, Nat.mul_comm]
    rw [hbufsplit, ← hplen, List.drop_left, List.take_left]
  · have hdf : dataFlat chunk.files
        = dataFlat (chunk.files.take i) ++
            ((chunk.files.get ⟨i, hi⟩).contents ++ dataFlat (chunk.files.drop (i + 1))) := by
      conv_lhs => rw [hdecomp]
      rw [dataFlat_append, dataFlat_cons]
    have hbufsplit :
        List.replicate (entrySize * chunk.files.length) (0 : Byte) ++
            namesFlat chunk.files ++ dataFlat chunk.files
        = (List.replicate (entrySize * chunk.files.length) 0 ++
              namesFlat chunk.files ++ dataFlat (chunk.files.take i)) ++
            ((chunk.files.get ⟨i, hi⟩).contents ++
              dataFlat (chunk.files.drop (i + 1))) := by
      rw [hdf]
      simp [List.append_assoc]
    have hplen :
        (List.replicate (entrySize * chunk.files.length) (0 : Byte) ++
          namesFlat chunk.files ++ dataFlat (chunk.files.take i)).length
        = chunk.files.length * entrySize + getChunkNameTotalSize chunk +
            sumData (chunk.files.take i) := by
      simp only [List.length_append, List.length_replicate, namesFlat_length,
        dataFlat_length, getChunkNameTotalSize]
      ring
    rw [hbufsplit, ← hplen, List.drop_left, List.take_left]

/-- C5: codec adapter contract. For every compressor and every input buffer
of n bytes, the scratch buffer compressData allocates has exactly
LZ4_compressBound(n) bytes; whenever compressData returns a buffer, the
compressed size reported by the compressor satisfies 0 ≤ csize ≤ bound and
the returned buffer is truncated to exactly csize bytes; and an out-of-bound
or negative reported size makes the assert fire (no buffer is returned, a
fatal condition rather than a normal error). -/
theorem compressData_contract (hc : Compressor) (data : List Byte) :
    ((hc data).2.take (LZ4_compressBound data.length) ++
        List.replicate (LZ4_compressBound data.length - (hc data).2.length) 0).length
      = LZ4_compressBound data.length
    ∧ (∀ out, compressData hc data = some out →
        0 ≤ (hc data).1 ∧ (hc data).1.toNat ≤ LZ4_compressBound data.length ∧
          out.length = (hc data).1.toNat)
    ∧ (¬(0 ≤ (hc data).1 ∧ (hc data).1.toNat ≤ LZ4_compressBound data.length) →
        compressData hc data = none) := by
  have hscratch :
      ((hc data).2.take (LZ4_compressBound data.length) ++
        List.replicate (LZ4_compressBound data.length - (hc data).2.length) 0).length
      = LZ4_compressBound data.length := by
    simp only [List.length_append, List.length_take, List.length_replicate]
    omega
  refine ⟨hscratch, ?_, ?_⟩
  · intro out hout
    unfold compressData at hout
    dsimp only at hout
    rw [hscratch] at hout
    by_cases hcond : 0 ≤ (hc data).1 ∧ (hc data).1.toNat ≤ LZ4_compressBound data.length
    · refine ⟨hcond.1, hcond.2, ?_⟩
      rw [if_pos hcond] at hout
      have : out = ((hc data).2.take (LZ4_compressBound data.length) ++
          List.replicate (LZ4_compressBound data.length - (hc data).2.length) 0).take
            (hc data).1.toNat := by
        exact (Option.some.injEq _ _).mp hout |>.symm
      rw [this]
      simp only [List.length_take, hscratch]
      omega
    · rw [if_neg hcond] at hout
      exact absurd hout (by simp)
  · intro hcond
    unfold compressData
    dsimp only
    rw [hscratch, if_neg hcond]

theorem flushChunk_empty (cfg : Config) (st : BuilderState)
    (h : st.currentChunk.files = []) : flushChunk cfg st = some st := by
  unfold flushChunk
  rw [if_pos h]

theorem flushChunk_writes (cfg : Config) (st : BuilderState) (cdata : List Byte)
    (hne : st.currentChunk.files ≠ [])
    (hcd : compressData cfg.hc (prepareChunkData cfg.entrySize st.currentChunk).buf
      = some cdata) :
    flushChunk cfg st = some
      ⟨Chunk.empty,
        st.out ++ [(⟨st.currentChunk.files.length,
          (prepareChunkData cfg.entrySize st.currentChunk).buf.length, cdata.length⟩, cdata)],
        ⟨st.statistics.fileCount + st.currentChunk.files.length,
          st.statistics.fileSize + (prepareChunkData cfg.entrySize st.currentChunk).buf.length,
          st.statistics.resultSize + cdata.length⟩⟩ := by
  unfold flushChunk writeChunk
  rw [if_neg hne, hcd]

theorem flushChunk_cases (cfg : Config) (st st1 : BuilderState)
    (h : flushChunk cfg st = some st1) :
    (st1 = st ∧ st1.out = st.out) ∨
      (st1.currentChunk = Chunk.empty ∧ st1.out.length = st.out.length + 1) := by
  unfold flushChunk at h
  by_cases he : st.currentChunk.files = []
  · rw [if_pos he] at h
    left
    have : st = st1 := Option.some.inj h
    exact ⟨this.symm, by rw [this]⟩
  · rw [if_neg he] at h
    unfold writeChunk at h
    cases hw : compressData cfg.hc (prepareChunkData cfg.entrySize st.currentChunk).buf with
    | none => rw [hw] at h; exact absurd h (by simp)
    | some cdata =>
        rw [hw] at h
        right
        have hst1 : st1 = ⟨Chunk.empty,
            st.out ++ [(⟨st.currentChunk.files.length,
              (prepareChunkData cfg.entrySize st.currentChunk).buf.length, cdata.length⟩,
              cdata)],
            ⟨st.statistics.fileCount + st.currentChunk.files.length,
              st.statistics.fileSize +
                (prepareChunkData cfg.entrySize st.currentChunk).buf.length,
              st.statistics.resultSize + cdata.length⟩⟩ := (Option.some.inj h).symm
        rw [hst1]
        simp

/-- C6: flush semantics. flushChunk is a no-op on an empty current chunk
(nothing is written, the state including the statistics is unchanged); on a
non-empty chunk it writes exactly one ChunkHeader record
{fileCount, uncompressedSize, compressedSize} followed by the compressed
body, updates the statistics, and resets the current chunk to empty; hence
two consecutive flushes write at most one record (the second is a no-op),
and the explicit flush at end of input — the same flushChunk the destructor
runs — always writes a partially filled trailing chunk rather than dropping
it. -/
theorem flushChunk_semantics :
    (∀ cfg st, st.currentChunk.files = [] → flushChunk cfg st = some st)
    ∧ (∀ cfg st cdata, st.currentChunk.files ≠ [] →
        compressData cfg.hc (prepareChunkData cfg.entrySize st.currentChunk).buf
          = some cdata →
        flushChunk cfg st = some
          ⟨Chunk.empty,
            st.out ++ [(⟨st.currentChunk.files.length,
              (prepareChunkData cfg.entrySize st.currentChunk).buf.length, cdata.length⟩,
              cdata)],
            ⟨st.statistics.fileCount + st.currentChunk.files.length,
              st.statistics.fileSize +
                (prepareChunkData cfg.entrySize st.currentChunk).buf.length,
              st.statistics.resultSize + cdata.length⟩⟩)
    ∧ (∀ cfg st st', flushChunk cfg st = some st' →
        flushChunk cfg st' = some st' ∧ st'.out.length ≤ st.out.length + 1)
    ∧ (∀ cfg st, Builder.flush cfg st = flushChunk cfg st) := by
  refine ⟨flushChunk_empty, flushChunk_writes, ?_, fun cfg st => rfl⟩
  intro cfg st st' h
  rcases flushChunk_cases cfg st st' h with ⟨heq, hout⟩ | ⟨hchunk, hout⟩
  · subst heq
    unfold flushChunk at h ⊢
    by_cases he : st'.currentChunk.files = []
    · exact ⟨by rw [if_pos he], by omega⟩
    · rw [if_neg he] at h ⊢
      exact ⟨h, by omega⟩
  · refine ⟨flushChunk_empty cfg st' (by rw [hchunk]; rfl), by omega⟩

/-- C9: appendFile returns false exactly when the source file cannot be
opened or its metadata cannot be read; in that failure case no file record
is appended — the current chunk is either untouched or (when the entry check
flushed it) reset to empty, so its totalSize never increases; on success
exactly one file record holding the file's complete contents, size and
timestamp is appended and totalSize grows by exactly the content length. -/
theorem appendFile_result (cfg : Config) (fs : FS) (st : BuilderState) (path : List Byte)
    (ok : Bool) (st' : BuilderState)
    (h : appendFile cfg fs st path = some (ok, st')) :
    (ok = false ↔ (fs.canOpen path = false ∨ fs.attrs path = none))
    ∧ (ok = false → (st'.currentChunk = st.currentChunk ∨ st'.currentChunk = Chunk.empty))
    ∧ (ok = true → ∃ ts fsz, fs.attrs path = some (ts, fsz) ∧
        ∃ base : Chunk, (base = st.currentChunk ∨ base = Chunk.empty) ∧
          st'.currentChunk.files = base.files ++ [⟨path, fs.contents path, fsz, ts⟩] ∧
          st'.currentChunk.totalSize = base.totalSize + (fs.contents path).length) := by
  unfold appendFile at h
  cases hif : (if st.currentChunk.totalSize > cfg.kChunkSize
      then flushChunk cfg st else some st) with
  | none => rw [hif] at h; exact absurd h (by simp)
  | some st1 =>
      rw [hif] at h
      have hbase : st1.currentChunk = st.currentChunk ∨ st1.currentChunk = Chunk.empty := by
        by_cases hc : st.currentChunk.totalSize > cfg.kChunkSize
        · rw [if_pos hc] at hif
          rcases flushChunk_cases cfg st st1 hif with ⟨heq, _⟩ | ⟨hch, _⟩
          · left; rw [heq]
          · right; exact hch
        · rw [if_neg hc] at hif
          left
          rw [← Option.some.inj hif]
      dsimp only at h
      by_cases hopen : fs.canOpen path = false
      · rw [if_pos hopen] at h
        have hok : ok = false := by
          have := Option.some.inj h
          exact (congrArg Prod.fst this).symm
        have hst : st' = st1 := by
          have := Option.some.inj h
          exact (congrArg Prod.snd this).symm
        subst hst
        refine ⟨by simp [hok, hopen], fun _ => hbase, fun htrue => absurd (hok ▸ htrue) (by simp)⟩
      · rw [if_neg hopen] at h
        have hcan : fs.canOpen path = true := by
          cases hcv : fs.canOpen path
          · exact absurd hcv hopen
          · rfl
        cases hattrs : fs.attrs path with
        | none =>
            rw [hattrs] at h
            have hok : ok = false := by
              have := Option.some.inj h
              exact (congrArg Prod.fst this).symm
            have hst : st' = st1 := by
              have := Option.some.inj h
              exact (congrArg Prod.snd this).symm
            subst hst
            refine ⟨by simp [hok, hattrs], fun _ => hbase,
              fun htrue => absurd (hok ▸ htrue) (by simp)⟩
        | some pair =>
            rw [hattrs] at h
            cases pair with
            | mk ts fsz =>
                have hok : ok = true := by
                  have := Option.some.inj h
                  exact (congrArg Prod.fst this).symm
                have hst : st' = { st1 with currentChunk :=
                    ⟨st1.currentChunk.files ++ [⟨path, fs.contents path, fsz, ts⟩],
                      st1.currentChunk.totalSize + (fs.contents path).length⟩ } := by
                  have := Option.some.inj h
                  exact (congrArg Prod.snd this).symm
                refine ⟨by simp [hok, hcan, hattrs], fun hfalse => absurd (hok ▸ hfalse) (by simp),
                  fun _ => ⟨ts, fsz, rfl, st1.currentChunk, hbase, by rw [hst], by rw [hst]⟩⟩

/-- C10: the threshold check and any resulting flush (compression, output
write, statistics update) happen before the new file is opened, so an
appendFile call that returns false can still have flushed the previous
chunk: the builder state is not necessarily unchanged on failure — the
current chunk can go from non-empty to empty and one more chunk record can
appear in the archive. -/
theorem appendFile_flushes_before_open (cfg : Config) (fs : FS) (st : BuilderState)
    (path : List Byte) (cdata : List Byte)
    (hT : st.currentChunk.totalSize > cfg.kChunkSize)
    (hne : st.currentChunk.files ≠ [])
    (hopen : fs.canOpen path = false)
    (hcd : compressData cfg.hc (prepareChunkData cfg.entrySize st.currentChunk).buf
      = some cdata) :
    appendFile cfg fs st path = some (false,
      ⟨Chunk.empty,
        st.out ++ [(⟨st.currentChunk.files.length,
          (prepareChunkData cfg.entrySize st.currentChunk).buf.length, cdata.length⟩, cdata)],
        ⟨st.statistics.fileCount + st.currentChunk.files.length,
          st.statistics.fileSize + (prepareChunkData cfg.entrySize st.currentChunk).buf.length,
          st.statistics.resultSize + cdata.length⟩⟩) := by
  unfold appendFile
  rw [if_pos hT, flushChunk_writes cfg st cdata hne hcd]
  dsimp only
  rw [if_pos hopen]

/-- C1: chunk boundary policy is check-before-append with a strict
comparison: the current chunk is flushed at the start of an append exactly
when its accumulated content size already strictly exceeds the threshold
kChunkSize, and never right after the append itself; consequently, for three
files of sizes 10, 10, 10 and threshold 15, the first flushed chunk contains
files 1 and 2 (total 20) and the finalize flush writes a chunk containing
file 3 alone. -/
theorem appendFile_boundary_policy :
    (∀ cfg fs st path ok st', appendFile cfg fs st path = some (ok, st') →
      ((st.currentChunk.totalSize ≤ cfg.kChunkSize → st'.out = st.out)
        ∧ (st.currentChunk.totalSize > cfg.kChunkSize → st.currentChunk.files ≠ [] →
            st'.out.length = st.out.length + 1)))
    ∧ (∀ (cfg : Config) (fs : FS) (p1 p2 p3 : List Byte) (ts1 sz1 ts2 sz2 ts3 sz3 : Nat)
        (c12 c3 : List Byte),
        cfg.kChunkSize = 15 →
        fs.canOpen p1 = true → fs.attrs p1 = some (ts1, sz1) → (fs.contents p1).length = 10 →
        fs.canOpen p2 = true → fs.attrs p2 = some (ts2, sz2) → (fs.contents p2).length = 10 →
        fs.canOpen p3 = true → fs.attrs p3 = some (ts3, sz3) → (fs.contents p3).length = 10 →
        compressData cfg.hc (prepareChunkData cfg.entrySize
          ⟨[⟨p1, fs.contents p1, sz1, ts1⟩, ⟨p2, fs.contents p2, sz2, ts2⟩], 20⟩).buf
          = some c12 →
        compressData cfg.hc (prepareChunkData cfg.entrySize
          ⟨[⟨p3, fs.contents p3, sz3, ts3⟩], 10⟩).buf = some c3 →
        buildRun cfg fs [p1, p2, p3] Builder.init = some
          ⟨Chunk.empty,
            [(⟨2, (prepareChunkData cfg.entrySize
                ⟨[⟨p1, fs.contents p1, sz1, ts1⟩, ⟨p2, fs.contents p2, sz2, ts2⟩],
                  20⟩).buf.length, c12.length⟩, c12),
              (⟨1, (prepareChunkData cfg.entrySize
                ⟨[⟨p3, fs.contents p3, sz3, ts3⟩], 10⟩).buf.length, c3.length⟩, c3)],
            ⟨3, (prepareChunkData cfg.entrySize
                ⟨[⟨p1, fs.contents p1, sz1, ts1⟩, ⟨p2, fs.contents p2, sz2, ts2⟩],
                  20⟩).buf.length +
                (prepareChunkData cfg.entrySize
                  ⟨[⟨p3, fs.contents p3, sz3, ts3⟩], 10⟩).buf.length,
              c12.length + c3.length⟩⟩) := by
  constructor
  · intro cfg fs st path ok st' h
    unfold appendFile at h
    cases hif : (if st.currentChunk.totalSize > cfg.kChunkSize
        then flushChunk cfg st else some st) with
    | none => rw [hif] at h; exact absurd h (by simp)
    | some st1 =>
        rw [hif] at h
        dsimp only at h
        have hout1 : st'.out = st1.out := by
          by_cases hopen : fs.canOpen path = false
          · rw [if_pos hopen] at h
            have hst : st' = st1 := (congrArg Prod.snd (Option.some.inj h)).symm
            rw [hst]
          · rw [if_neg hopen] at h
            cases hattrs : fs.attrs path with
            | none =>
                rw [hattrs] at h
                have hst : st' = st1 := (congrArg Prod.snd (Option.some.inj h)).symm
                rw [hst]
            | some pair =>
                rw [hattrs] at h
                cases pair with
                | mk ts fsz =>
                    have hst : st' = { st1 with currentChunk :=
                        ⟨st1.currentChunk.files ++ [⟨path, fs.contents path, fsz, ts⟩],
                          st1.currentChunk.totalSize + (fs.contents path).length⟩ } :=
                      (congrArg Prod.snd (Option.some.inj h)).symm
                    rw [hst]
        constructor
        · intro hle
          have : ¬st.currentChunk.totalSize > cfg.kChunkSize := by omega
          rw [if_neg this] at hif
          rw [hout1, ← Option.some.inj hif]
        · intro hgt hne
          rw [if_pos hgt] at hif
          rcases flushChunk_cases cfg st st1 hif with ⟨heq, _⟩ | ⟨_, hlen⟩
          · exfalso
            unfold flushChunk at hif
            rw [if_neg hne] at hif
            unfold writeChunk at hif
            cases hw : compressData cfg.hc (prepareChunkData cfg.entrySize st.currentChunk).buf with
            | none => rw [hw] at hif; exact absurd hif (by simp)
            | some cdata =>
                rw [hw] at hif
                have := Option.some.inj hif
                have hlen2 : st1.out.length = st.out.length + 1 := by
                  rw [← this]
                  simp
                rw [heq] at hlen2
                omega
          · rw [hout1]; exact hlen
  · intro cfg fs p1 p2 p3 ts1 sz1 ts2 sz2 ts3 sz3 c12 c3 h15 hcan1 hattr1 hlen1
      hcan2 hattr2 hlen2 hcan3 hattr3 hlen3 hc12 hc3
    simp [buildRun, appendAll, appendFile, flushChunk, writeChunk, Builder.init,
      Chunk.empty, h15, hcan1, hattr1, hlen1, hcan2, hattr2, hlen2, hcan3, hattr3, hlen3,
      hc12, hc3]

/-- C4: value trimming fails on strings with both leading and trailing
whitespace: trim passes e + 1 as substr's count argument instead of
e - b + 1, so trimming the three-character string with a space, the letter a
and a space keeps the trailing space — the result is not the substring from
the first to the last non-whitespace character. The same wrong value is what
extractSuffix stores for a directive's suffix. -/
theorem trim_keeps_trailing_space :
    trim [' ', 'a', ' '] = ['a', ' ']
    ∧ trim [' ', 'a', ' '] ≠ ['a']
    ∧ extractSuffix [' ', 'a', ' '] [] = some ['a', ' '] := by
  refine ⟨by decide, by decide, by decide⟩

theorem mem_uniqueAdj (l : List String) (x : String) : x ∈ uniqueAdj l ↔ x ∈ l := by
  induction l using uniqueAdj.induct with
  | case1 => simp [uniqueAdj]
  | case2 a => simp [uniqueAdj]
  | case3 b rest ih =>
      rw [show uniqueAdj (b :: b :: rest) = uniqueAdj (b :: rest) from by
        rw [uniqueAdj]; simp]
      rw [ih]
      simp
  | case4 a b rest hab ih =>
      rw [show uniqueAdj (a :: b :: rest) = a :: uniqueAdj (b :: rest) from by
        rw [uniqueAdj]; simp [hab]]
      simp [ih]

theorem sorted_lt_uniqueAdj (l : List String) (h : l.Sorted (· ≤ ·)) :
    (uniqueAdj l).Sorted (· < ·) := by
  induction l using uniqueAdj.induct with
  | case1 => simp [uniqueAdj]
  | case2 a => simp [uniqueAdj]
  | case3 b rest ih =>
      rw [show uniqueAdj (b :: b :: rest) = uniqueAdj (b :: rest) from by
        rw [uniqueAdj]; simp]
      exact ih (List.sorted_cons.mp h).2
  | case4 a b rest hab ih =>
      rw [show uniqueAdj (a :: b :: rest) = a :: uniqueAdj (b :: rest) from by
        rw [uniqueAdj]; simp [hab]]
      rw [List.sorted_cons] at h ⊢
      refine ⟨?_, ih h.2⟩
      intro x hx
      have hmem : x ∈ b :: rest := (mem_uniqueAdj _ _).mp hx
      have hax : a ≤ x := h.1 x hmem
      refine lt_of_le_of_ne hax ?_
      intro he
      rcases List.mem_cons.mp hmem with hb | hr
      · exact hab (he.trans hb)
      · have hbx : b ≤ x := (List.sorted_cons.mp h.2).1 x hr
        exact hab (le_antisymm (h.1 b (List.mem_cons_self b rest)) (he ▸ hbx))

/-- C7: the final file list handed to the Builder is sorted with exact
duplicates removed: it is lexicographically sorted, duplicate free,
invariant under any permutation of the scanned candidates (order
independence of directory iteration), and a path reachable both through the
explicit file list and through a scan appears exactly once. -/
theorem sortUnique_spec (explicitFiles scanned : List String) :
    List.Sorted (· ≤ ·) (sortUnique (explicitFiles ++ scanned))
    ∧ (sortUnique (explicitFiles ++ scanned)).Nodup
    ∧ (∀ scanned', scanned.Perm scanned' →
        sortUnique (explicitFiles ++ scanned') = sortUnique (explicitFiles ++ scanned))
    ∧ (∀ p, p ∈ explicitFiles → p ∈ scanned →
        (sortUnique (explicitFiles ++ scanned)).count p = 1) := by
  have hsorted := List.sorted_insertionSort (· ≤ ·) (explicitFiles ++ scanned)
  have hlt := sorted_lt_uniqueAdj _ hsorted
  have hle : List.Sorted (· ≤ ·) (sortUnique (explicitFiles ++ scanned)) :=
    hlt.imp le_of_lt
  have hnodup : (sortUnique (explicitFiles ++ scanned)).Nodup := hlt.nodup
  refine ⟨hle, hnodup, ?_, ?_⟩
  · intro scanned' hperm
    unfold sortUnique
    congr 1
    refine List.eq_of_perm_of_sorted ?_ (List.sorted_insertionSort (· ≤ ·) _)
      (List.sorted_insertionSort (· ≤ ·) _)
    exact (List.perm_insertionSort _ _).trans
      ((List.Perm.append_left explicitFiles hperm.symm).trans
        (List.perm_insertionSort _ _).symm)
  · intro p hpe _
    apply List.count_eq_one_of_mem hnodup
    rw [sortUnique, mem_uniqueAdj]
    exact (List.perm_insertionSort _ _).mem_iff.mpr (List.mem_append_left scanned hpe)

/-- C8: file acceptance predicate: a scanned candidate is accepted iff (the
include list is empty, or the path matches the alternation pattern built
from it) and not (the exclude list is non-empty and the path matches the
exclude alternation); an empty include list accepts every candidate and an
empty exclude list rejects none. -/
theorem isFileAcceptable_spec (pm : String → String → Bool)
    (includeList excludeList : List String) (path : String) :
    (isFileAcceptable pm (constructOrRE includeList) (constructOrRE excludeList) path = true
      ↔ ((includeList = [] ∨
            ∃ r, constructOrRE includeList = some r ∧ pm r path = true)
          ∧ ¬(excludeList ≠ [] ∧
            ∃ r, constructOrRE excludeList = some r ∧ pm r path = true)))
    ∧ (includeList = [] → excludeList = [] →
        isFileAcceptable pm (constructOrRE includeList) (constructOrRE excludeList) path
          = true) := by
  constructor
  · cases includeList with
    | nil =>
        cases excludeList with
        | nil => simp [isFileAcceptable, constructOrRE]
        | cons q qs =>
            obtain ⟨pat2, hpat2⟩ : ∃ t, constructOrRE (q :: qs) = some t := ⟨_, rfl⟩
            rw [hpat2]
            cases hpm2 : pm pat2 path <;> simp [isFileAcceptable, hpm2, constructOrRE]
    | cons p ps =>
        obtain ⟨pat, hpat⟩ : ∃ t, constructOrRE (p :: ps) = some t := ⟨_, rfl⟩
        rw [hpat]
        cases excludeList with
        | nil =>
            cases hpm : pm pat path <;> simp [isFileAcceptable, hpm, constructOrRE]
        | cons q qs =>
            obtain ⟨pat2, hpat2⟩ : ∃ t, constructOrRE (q :: qs) = some t := ⟨_, rfl⟩
            rw [hpat2]
            cases hpm : pm pat path <;> cases hpm2 : pm pat2 path <;>
              simp [isFileAcceptable, hpm, hpm2]
  · intro h1 h2
    subst h1
    subst h2
    simp [isFileAcceptable, constructOrRE]

theorem appendFile_boundary_policy_witness :
    buildRun cfgW fsW [[1], [2], [3]] Builder.init = some
      ⟨Chunk.empty,
        [(⟨2, 22, 22⟩, [1, 2] ++ List.replicate 20 7),
          (⟨1, 11, 11⟩, [3] ++ List.replicate 10 7)],
        ⟨3, 33, 33⟩⟩ := by
  exact appendFile_boundary_policy.2 cfgW fsW [1] [2] [3] 5 10 5 10 5 10
    ([1, 2] ++ List.replicate 20 7) ([3] ++ List.replicate 10 7)
    rfl rfl rfl (by decide) rfl rfl (by decide) rfl rfl (by decide)
    (by decide) (by decide)

theorem prepareChunkData_layout_witness :
    cW.files ≠ [] ∧
      ((prepareChunkData 2 cW).headers.length = 2
        ∧ (∀ hh : 1 < (prepareChunkData 2 cW).headers.length,
            (prepareChunkData 2 cW).headers.get ⟨1, hh⟩ = ⟨5, 2, 9, 1, 9, 4⟩)
        ∧ ((prepareChunkData 2 cW).buf.drop 5).take 2 = [11, 12]
        ∧ ((prepareChunkData 2 cW).buf.drop 9).take 1 = [30]) :=
  ⟨by decide, prepareChunkData_layout 2 cW (by decide) 1 (by decide)⟩

theorem compressData_contract_witness :
    ((hcW dataW).2.take (LZ4_compressBound dataW.length) ++
        List.replicate (LZ4_compressBound dataW.length - (hcW dataW).2.length) 0).length
      = LZ4_compressBound dataW.length
    ∧ (∀ out, compressData hcW dataW = some out →
        0 ≤ (hcW dataW).1 ∧ (hcW dataW).1.toNat ≤ LZ4_compressBound dataW.length ∧
          out.length = (hcW dataW).1.toNat)
    ∧ (¬(0 ≤ (hcW dataW).1 ∧ (hcW dataW).1.toNat ≤ LZ4_compressBound dataW.length) →
        compressData hcW dataW = none) :=
  compressData_contract hcW dataW

theorem flushChunk_semantics_witness :
    flushChunk cfgW stW = some
      ⟨Chunk.empty, [(⟨1, 11, 11⟩, [3] ++ List.replicate 10 7)], ⟨1, 11, 11⟩⟩ := by
  exact flushChunk_semantics.2.1 cfgW stW ([3] ++ List.replicate 10 7) (by decide) (by decide)

theorem sortUnique_spec_witness :
    List.Sorted (· ≤ ·) (sortUnique (["b", "a"] ++ ["a", "c"]))
    ∧ (sortUnique (["b", "a"] ++ ["a", "c"])).Nodup
    ∧ (∀ scanned', (["a", "c"] : List String).Perm scanned' →
        sortUnique (["b", "a"] ++ scanned') = sortUnique (["b", "a"] ++ ["a", "c"]))
    ∧ (∀ p, p ∈ (["b", "a"] : List String) → p ∈ (["a", "c"] : List String) →
        (sortUnique (["b", "a"] ++ ["a", "c"])).count p = 1) :=
  sortUnique_spec ["b", "a"] ["a", "c"]

theorem isFileAcceptable_spec_witness :
    (isFileAcceptable pmW (constructOrRE ["x"]) (constructOrRE []) "foo" = true
      ↔ ((["x"] = ([] : List String) ∨
            ∃ r, constructOrRE ["x"] = some r ∧ pmW r "foo" = true)
          ∧ ¬(([] : List String) ≠ [] ∧
            ∃ r, constructOrRE [] = some r ∧ pmW r "foo" = true)))
    ∧ (["x"] = ([] : List String) → ([] : List String) = [] →
        isFileAcceptable pmW (constructOrRE ["x"]) (constructOrRE []) "foo" = true) :=
  isFileAcceptable_spec pmW ["x"] [] "foo"

theorem appendFile_result_witness :
    (false = false ↔ (fsW2.canOpen [1] = false ∨ fsW2.attrs [1] = none))
    ∧ (false = false →
        (Builder.init.currentChunk = Builder.init.currentChunk ∨
          Builder.init.currentChunk = Chunk.empty))
    ∧ (false = true → ∃ ts fsz, fsW2.attrs [1] = some (ts, fsz) ∧
        ∃ base : Chunk, (base = Builder.init.currentChunk ∨ base = Chunk.empty) ∧
          Builder.init.currentChunk.files
              = base.files ++ [⟨[1], fsW2.contents [1], fsz, ts⟩] ∧
            Builder.init.currentChunk.totalSize
              = base.totalSize + (fsW2.contents [1]).length) := by
  exact appendFile_result cfgW fsW2 Builder.init [1] false Builder.init (by decide)

theorem appendFile_flushes_before_open_witness :
    appendFile cfgW fsW2 stW2 [1] = some (false,
      ⟨Chunk.empty, [(⟨1, 17, 17⟩, [3] ++ List.replicate 16 7)], ⟨1, 17, 17⟩⟩) := by
  exact appendFile_flushes_before_open cfgW fsW2 stW2 [1] ([3] ++ List.replicate 16 7)
    (by decide) (by decide) (by decide) (by decide)

end QGrep
